import Mathlib

/-!
Shallow embedding of `vyxal/LazyList.py`: the `LazyList` class together with
the `vyxalify` (spec: `canonicalize`) and `simplify` (spec: `flatten`)
normalization helpers, and proofs about the properties claimed for them.

Machine-level conventions of the embedding:
* Python `int` and `sympy.Integer` values are carried as `ℤ`.
* `sympy.Rational` values are carried as `ℚ`.
* Python `float` values are carried as the exact rational value of the
  IEEE-754 double they denote; `floatOfRat` models the conversion
  `float(Rational)` (round to nearest, ties to even).
* A one-shot producer (generator/iterator) is carried as the list of values
  it has yet to yield; `itertools.tee` hands two consumers the same
  remaining list.
-/

set_option autoImplicit false

/-- Power of two as a rational, used for binary floating-point scaling. -/
def pow2 (e : ℤ) : ℚ :=
  if 0 ≤ e then ((2 ^ e.toNat : ℕ) : ℚ) else (1 : ℚ) / ((2 ^ (-e).toNat : ℕ) : ℚ)

/-- Floor of the base-2 logarithm of a positive rational `q`.  The candidate
`e0` computed from the bit lengths of numerator and denominator is within two
of the true value, and the correction picks the exponent with
`pow2 e ≤ q < pow2 (e + 1)`. -/
def floorLog2Q (q : ℚ) : ℤ :=
  let e0 : ℤ := (Nat.log2 q.num.natAbs : ℤ) - (Nat.log2 q.den : ℤ)
  if q < pow2 (e0 - 1) then e0 - 2
  else if q < pow2 e0 then e0 - 1
  else if q < pow2 (e0 + 1) then e0
  else if q < pow2 (e0 + 2) then e0 + 1
  else e0 + 2

/-- Round a rational to the nearest integer, ties to even. -/
def roundHalfEven (q : ℚ) : ℤ :=
  let f := ⌊q⌋
  let r := q - (f : ℚ)
  if r < 1 / 2 then f
  else if 1 / 2 < r then f + 1
  else if f % 2 = 0 then f else f + 1

/-- Exact value of the IEEE-754 double nearest to `q` (round to nearest, ties
to even): the value computed by Python `float(...)` on an exact rational.
Normal range uses a 53-bit significand; values below the normal range use the
subnormal quantum `2 ^ (-1074)`.  Inputs beyond the double range (absolute
value at least `2 ^ 1024`) overflow to infinity in Python and are not
exercised by any claim; they are mapped coarsely to `±2 ^ 1024`. -/
def floatOfRat (q : ℚ) : ℚ :=
  if q = 0 then 0
  else
    let sgn : ℤ := if q < 0 then -1 else 1
    let a := |q|
    let e := floorLog2Q a
    if e ≤ -1023 then ((sgn * roundHalfEven (a / pow2 (-1074)) : ℤ) : ℚ) * pow2 (-1074)
    else if 1023 < e then (sgn : ℚ) * pow2 1024
    else ((sgn * roundHalfEven (a / pow2 (e - 52)) : ℤ) : ℚ) * pow2 (e - 52)

/-- A Python value as it occurs in `LazyList.py`:

* `symInt n` — a raw `sympy.Integer` (a symbolic value not yet canonicalized);
* `pyInt n` — a native `int`;
* `rat q` — a `sympy.Rational`;
* `flt q` — a native `float`, carried as the exact rational value of the double;
* `str s` — a native `str`;
* `list xs` — a native `list`;
* `lazy raw gen inf` — a `LazyList` whose producer still has the values `raw`
  to yield, whose cache (`self.generated`) holds `gen`, with `infinite` flag
  `inf`.

Unevaluated symbolic products (`sympy.Mul`, `sympy.factorial` applied to a
symbol) do not occur in this universe: the source's string-round-trip branch
of `vyxalify` for them is noted where `vyxalify` is defined, and no claim
exercises it. -/
inductive PyVal where
  | symInt (n : ℤ)
  | pyInt (n : ℤ)
  | rat (q : ℚ)
  | flt (q : ℚ)
  | str (s : String)
  | list (xs : List PyVal)
  | lazy (raw gen : List PyVal) (inf : Bool)

mutual

/-- Constructor-counting size of a `PyVal`; payloads (integers, rationals,
strings) count one.  Used as the termination measure for functions that
unfold nested `LazyList` values. -/
def psize : PyVal → ℕ
  | .list xs => 1 + psizeList xs
  | .lazy r g _ => 1 + psizeList r + psizeList g
  | _ => 1

/-- Sum of `psize` over a list, plus one per element. -/
def psizeList : List PyVal → ℕ
  | [] => 0
  | x :: xs => 1 + psize x + psizeList xs

end

mutual

/-- Embedding of `simplify` (spec: `flatten`): native `int`, `float` and `str`
pass through; a `sympy.Rational` (which includes `sympy.Integer`) becomes the
`float` of its value; everything else is iterated and simplified elementwise
into a native list.  Iterating a `LazyList` yields its cached values followed
by the remaining producer values. -/
def simplify : PyVal → PyVal
  | .pyInt n => .pyInt n
  | .flt q => .flt q
  | .str s => .str s
  | .symInt n => .flt (floatOfRat (n : ℚ))
  | .rat q => .flt (floatOfRat q)
  | .list xs => .list (simplifyList xs)
  | .lazy r g _ => .list (simplifyList g ++ simplifyList r)

/-- `simplify` mapped over a list. -/
def simplifyList : List PyVal → List PyVal
  | [] => []
  | x :: xs => simplify x :: simplifyList xs

end

/-- Numeric value of a `PyVal`, when it is numeric.  Python/sympy equality
and order comparisons between any two of `int`, `sympy.Integer`,
`sympy.Rational` and `float` compare the exact values. -/
def numVal? : PyVal → Option ℚ
  | .symInt n => some (n : ℚ)
  | .pyInt n => some (n : ℚ)
  | .rat q => some q
  | .flt q => some q
  | _ => none

mutual

/-- Structural/value equality on values in the image of `simplify` (no
`LazyList` and no raw symbolic value occurs there): numerics compare by exact
value, strings by contents, lists elementwise. -/
def eqS (a b : PyVal) : Bool :=
  match a, b with
  | .list xs, .list ys => eqSList xs ys
  | .str s, .str t => s == t
  | a, b =>
    match numVal? a, numVal? b with
    | some x, some y => x == y
    | _, _ => false

/-- Elementwise `eqS`, requiring equal lengths. -/
def eqSList : List PyVal → List PyVal → Bool
  | [], [] => true
  | x :: xs, y :: ys => eqS x y && eqSList xs ys
  | _, _ => false

end

theorem psize_pos (a : PyVal) : 1 ≤ psize a := by
  cases a <;> simp only [psize] <;> omega

theorem psizeList_append (xs ys : List PyVal) :
    psizeList (xs ++ ys) = psizeList xs + psizeList ys := by
  induction xs with
  | nil => simp [psizeList]
  | cons x xs ih => simp [psizeList, ih]; omega

theorem psizeList_take_le (n : ℕ) (xs : List PyVal) :
    psizeList (xs.take n) ≤ psizeList xs := by
  induction xs generalizing n with
  | nil => simp [psizeList]
  | cons x xs ih =>
    cases n with
    | zero => simp [psizeList]
    | succ m =>
      simp only [List.take_succ_cons, psizeList]
      have := ih m
      omega

mutual

theorem psize_simplify_le (a : PyVal) : psize (simplify a) ≤ psize a := by
  cases a with
  | list xs =>
    have := psizeList_simplifyList_le xs
    simp only [simplify, psize]
    omega
  | lazy r g i =>
    have h1 := psizeList_simplifyList_le r
    have h2 := psizeList_simplifyList_le g
    simp only [simplify, psize, psizeList_append]
    omega
  | symInt n => simp [simplify, psize]
  | pyInt n => simp [simplify, psize]
  | rat q => simp [simplify, psize]
  | flt q => simp [simplify, psize]
  | str s => simp [simplify, psize]

theorem psizeList_simplifyList_le (xs : List PyVal) :
    psizeList (simplifyList xs) ≤ psizeList xs := by
  cases xs with
  | nil => simp [simplifyList]
  | cons x xs =>
    have h1 := psize_simplify_le x
    have h2 := psizeList_simplifyList_le xs
    simp only [simplifyList, psizeList]
    omega

end

mutual

/-- Embedding of Python `==` on the values of this universe.  Numerics
(`int`, `sympy.Integer`, `sympy.Rational`, `float`) compare by exact value
(sympy comparisons are exact), strings by contents, lists elementwise.  When
either side is a `LazyList`, `LazyList.__eq__` runs (directly or as the
reflected comparison): `self.listify() == simplify(other)`, where
`listify` produces the cached values *raw* followed by the remaining
producer values simplified. -/
def pyEq (a b : PyVal) : Bool :=
  match a, b with
  | .lazy r g _, b => pyEqLazy g r (simplify b)
  | a, .lazy r g _ => pyEqLazy g r (simplify a)
  | .list xs, .list ys => pyEqList xs ys
  | .str s, .str t => s == t
  | a, b =>
    match numVal? a, numVal? b with
    | some x, some y => x == y
    | _, _ => false
termination_by psize a + psize b
decreasing_by
  · have := psize_simplify_le b
    simp only [psize]
    omega
  · have := psize_simplify_le a
    have := psize_pos a
    simp only [psize]
    omega
  · simp only [psize, psizeList]
    omega

/-- Comparison underlying `LazyList.__eq__`: the list
`self.generated ++ simplify-of-remaining` (the result of `listify`) compared
with the already-simplified `z`.  A list compares equal only to a list of the
same length; the cached values `g` compare via full Python `==`, the
remaining values via `eqS` after simplification. -/
def pyEqLazy (g r : List PyVal) (z : PyVal) : Bool :=
  match z with
  | .list ys =>
    (g.length + r.length == ys.length)
      && pyEqList g (ys.take g.length)
      && eqSList (simplifyList r) (ys.drop g.length)
  | _ => false
termination_by psizeList g + psizeList r + psize z
decreasing_by
  · have := psizeList_take_le g.length ys
    simp only [psize]
    omega

/-- Elementwise Python `==` on lists, requiring equal lengths. -/
def pyEqList : List PyVal → List PyVal → Bool
  | [], [] => true
  | x :: xs, y :: ys => pyEq x y && pyEqList xs ys
  | _, _ => false
termination_by xs ys => psizeList xs + psizeList ys
decreasing_by
  · simp only [psizeList]
    have := psize_pos x
    omega
  · simp only [psizeList]
    have := psize_pos x
    omega

end

/-- State of a `LazyList` object: `rawObject` is the remaining output of the
one-shot producer (`self.raw_object`), `generated` is the cache
(`self.generated`), `infinite` is the `isinf` flag.  Construction from a
finite container or generator starts with the whole output in `rawObject`
and an empty cache. -/
structure LL where
  rawObject : List PyVal
  generated : List PyVal
  infinite : Bool

/-- The conceptual full element sequence of a `LazyList`: the cached values
followed by the values the producer has yet to yield. -/
def LL.elems (s : LL) : List PyVal := s.generated ++ s.rawObject

/-- Embedding of `__next__`: pull the next raw value from the producer and
append it — unchanged — to the cache; `none` models `StopIteration`. -/
def LL.next (s : LL) : Option (PyVal × LL) :=
  match s.rawObject with
  | [] => none
  | x :: r => some (x, ⟨r, s.generated ++ [x], s.infinite⟩)

/-- Embedding of `__iter__`: `itertools.tee` splits the remaining producer
into two clones, one of which replaces `self.raw_object` (so the state is
extensionally unchanged), and the fresh iteration yields a snapshot of the
cache (`self.generated[::]`) followed by the other clone's values.  The
returned list is everything the fresh iteration will yield; consuming it is
pure and cannot disturb the state or any other iteration. -/
def LL.iter (s : LL) : List PyVal × LL := (s.generated ++ s.rawObject, s)

/-- Embedding of `listify`: `temp = self.generated + simplify(self.raw_object)`
(the cached values raw, the remaining producer values simplified), then
`self.raw_object = iter(temp[::])` and `self.generated = []`. -/
def LL.listify (s : LL) : List PyVal × LL :=
  let temp := s.generated ++ simplifyList s.rawObject
  (temp, ⟨temp, [], s.infinite⟩)

/-- Embedding of `__getitem__` on an integer position.  Negative positions:
`self.generated += list(self)` (a fresh iteration, i.e. cache snapshot plus
remaining values — the producer itself is kept by the tee) and then index the
grown cache from the end; an out-of-range negative index models Python's
`IndexError` as `none`.  Non-negative positions: answer from the cache when
present, otherwise force production until index `i` is cached or the
producer exhausts; on exhaustion fall back to `generated[i % len(generated)]`
when the cache is non-empty and to `0` when it is empty. -/
def LL.getItem (s : LL) (i : ℤ) : Option PyVal × LL :=
  if i < 0 then
    let g := s.generated ++ (s.generated ++ s.rawObject)
    let st : LL := ⟨s.rawObject, g, s.infinite⟩
    if (g.length : ℤ) + i < 0 then (none, st)
    else (g.get? ((g.length : ℤ) + i).toNat, st)
  else
    let k := i.toNat
    if k < s.generated.length then (s.generated.get? k, s)
    else
      let need := k + 1 - s.generated.length
      let gen := s.generated ++ s.rawObject.take need
      let st : LL := ⟨s.rawObject.drop need, gen, s.infinite⟩
      if gen.length = 0 then (some (.pyInt 0), st)
      else (gen.get? (k % gen.length), st)

/-- Python list slicing `l[start:None:step]` for a non-negative `start`.
The source computes `position.step or 1`, so a `None` — or zero, `0` being
falsy — step is replaced by `1`.  A positive step walks `start, start+step,
…` upward; a negative step walks downward from `min(start, len-1)`. -/
def pySliceNone (l : List PyVal) (start : ℕ) (step : ℤ) : List PyVal :=
  let st := if step = 0 then 1 else step
  if 0 < st then
    (List.range l.length).filterMap fun j =>
      if start ≤ j ∧ (j - start) % st.toNat = 0 then l.get? j else none
  else
    if l.length = 0 then []
    else
      let k := (-st).toNat
      let b := min start (l.length - 1)
      (List.range (b + 1)).reverse.filterMap fun j =>
        if (b - j) % k = 0 then l.get? j else none

/-- Embedding of `__getitem__` on a slice with `stop is None`, fully driving
the returned `LazyList`: its producer runs `self.listify()` — which resets
`self.generated` to `[]` — and then yields `self.generated[start:None:step]`
as it reads after that call. -/
def LL.sliceUnbounded (s : LL) (start : ℕ) (step : ℤ) : List PyVal × LL :=
  let temp := s.generated ++ simplifyList s.rawObject
  let st : LL := ⟨temp, [], s.infinite⟩
  (pySliceNone st.generated start step, st)

/-- Embedding of `__add__` (`LazyList(join_with(self.raw_object, rhs))`)
followed by fully consuming one iteration of the result.  The generator
captures `self.raw_object` itself — no tee split and no fresh iteration of
`self` — so driving the concatenation to the end drains `self`'s producer in
place without touching `self.generated`; `rhs` is iterated through its own
`__iter__` (cache snapshot followed by a tee clone of its remaining values),
leaving `rhs` extensionally unchanged. -/
def LL.concatIter (a b : LL) : List PyVal × LL × LL :=
  (a.rawObject ++ (b.generated ++ b.rawObject), ⟨[], a.generated, a.infinite⟩, b)

/-- Python `<=` between values of this universe: numerics compare by exact
value.  A non-numeric comparison raises `TypeError` in Python; no claim
exercises one, and it is modelled as `false`. -/
def pyLeB (a b : PyVal) : Bool :=
  match numVal? a, numVal? b with
  | some x, some y => decide (x ≤ y)
  | _, _ => false

/-- The production loop of `__contains__` on a `LazyList` flagged infinite:
while the last produced value is `<=` the target, pull the next value
(appending it to the cache) and return found on equality.  When the producer
exhausts inside the loop, `next(self)` raises `StopIteration`, which the
method does not catch: `.error ()` models that propagating exhaustion. -/
def containsInf (last : PyVal) (raw gen : List PyVal) (inf : Bool) (t : PyVal) :
    Except Unit (Bool × LL) :=
  if pyLeB last t then
    match raw with
    | [] => .error ()
    | x :: r =>
      if pyEq x t then .ok (true, ⟨r, gen ++ [x], inf⟩)
      else containsInf x r (gen ++ [x]) inf t
  else .ok (false, ⟨raw, gen, inf⟩)

/-- Embedding of `__contains__`.  On a sequence flagged infinite, run the
monotone production loop starting from the last cached value (or `0` for an
empty cache).  Otherwise linearly scan one fresh iteration (cache snapshot
followed by remaining values; the state is extensionally unchanged). -/
def LL.contains (s : LL) (t : PyVal) : Except Unit (Bool × LL) :=
  if s.infinite then
    let last := (s.generated.getLast?).getD (.pyInt 0)
    containsInf last s.rawObject s.generated s.infinite t
  else
    .ok ((s.generated ++ s.rawObject).any (fun x => pyEq x t), s)

/-- Embedding of `__eq__`: `self.listify() == simplify(other)`.  The cached
values enter the comparison raw (unsimplified); the remaining producer
values and `other` are simplified. -/
def LL.eq (s : LL) (other : PyVal) : Bool × LL :=
  let temp := s.generated ++ simplifyList s.rawObject
  (pyEq (.list temp) (simplify other), ⟨temp, [], s.infinite⟩)

/-- Embedding of `vyxalify` (spec: `canonicalize`).  A `sympy.Integer`
becomes a native `int`.  The second source branch — `sympy.factorial` /
`sympy.core.mul.Mul`, converted through the string round-trip
`Rational(str(float(value)))` — concerns unevaluated symbolic products,
which do not occur in this value universe, and no claim exercises it.  Then
any of `int`, `Rational`, `str`, `list`, `LazyList` passes through
*unchanged* (note that native lists are in that tuple).  Anything else is
wrapped as `LazyList(map(vyxalify, value))`; the only remaining constructor
is `float`, which is not iterable, so constructing the `map` raises
`TypeError`, modelled as `none`. -/
def vyxalify : PyVal → Option PyVal
  | .symInt n => some (.pyInt n)
  | .pyInt n => some (.pyInt n)
  | .rat q => some (.rat q)
  | .str s => some (.str s)
  | .list xs => some (.list xs)
  | .lazy r g i => some (.lazy r g i)
  | .flt _ => none

/-- Statement of claim C9's right-hand side, following the spec's words: the
flattened form of the whole sequence (every element simplified, cached or
not) is structurally identical to the flattened form of `other`. -/
def specFlattenedEq (s : LL) (other : PyVal) : Bool :=
  eqS (.list (simplifyList (s.generated ++ s.rawObject))) (simplify other)

theorem floatOfRat_dyadic (q : ℚ) : ∃ m k : ℤ, floatOfRat q = (m : ℚ) * pow2 k := by
  simp only [floatOfRat]
  split_ifs
  all_goals first
    | exact ⟨_, -1074, rfl⟩
    | exact ⟨_, 1024, rfl⟩
    | exact ⟨_, _, rfl⟩
    | exact ⟨0, 0, by norm_num⟩

theorem third_not_dyadic (m k : ℤ) : (m : ℚ) * pow2 k ≠ 1 / 3 := by
  intro h
  unfold pow2 at h
  split_ifs at h with hk
  · have h3 : ((m * 3 * 2 ^ k.toNat : ℤ) : ℚ) = 1 := by
      push_cast
      push_cast at h
      linarith
    have hz : (m * 3 * 2 ^ k.toNat : ℤ) = 1 := by exact_mod_cast h3
    have hdvd : (3 : ℤ) ∣ 1 := ⟨m * 2 ^ k.toNat, by linarith⟩
    norm_num at hdvd
  · have hpos : ((2 ^ (-k).toNat : ℕ) : ℚ) ≠ 0 := by positivity
    have h3 : ((m * 3 : ℤ) : ℚ) = ((2 ^ (-k).toNat : ℕ) : ℚ) := by
      push_cast
      push_cast at h
      field_simp at h
      linarith
    have hz : (m * 3 : ℤ) = ((2 ^ (-k).toNat : ℕ) : ℤ) := by exact_mod_cast h3
    have hdvd : (3 : ℕ) ∣ 2 ^ (-k).toNat := by
      have : (3 : ℤ) ∣ ((2 ^ (-k).toNat : ℕ) : ℤ) := ⟨m, by linarith⟩
      exact_mod_cast this
    have := Nat.Prime.dvd_of_dvd_pow Nat.prime_three hdvd
    omega

theorem floatOfRat_third_ne : floatOfRat (1 / 3) ≠ 1 / 3 := by
  obtain ⟨m, k, hd⟩ := floatOfRat_dyadic (1 / 3)
  rw [hd]
  exact third_not_dyadic m k

/-- Claim C1 (code_bug evidence): for every LazySequence and every
non-negative start and every step, the slice with the unbounded-stop sentinel
yields *nothing at all*: its producer runs `self.listify()`, which resets
`self.generated` to `[]`, and then reads `self.generated[start::step]` from
the now-empty cache.  The claim's promised `cache[start::step]` (e.g. `[2, 4]`
for `[1,2,3,4,5].slice(1, None, 2)`) is never produced. -/
theorem slice_unbounded_yields_nothing (s : LL) (start : ℕ) (step : ℤ) :
    (s.sliceUnbounded start step).1 = [] := by
  show pySliceNone [] start step = []
  unfold pySliceNone
  split_ifs <;> simp

/-- Claim C4 (code_bug evidence): `__next__` appends the producer's raw value
to the cache and returns it to the caller without passing it through
`vyxalify`: a producer yielding the symbolic `sympy.Integer(5)` leaves the raw
symbolic value in the cache, although `vyxalify` would have canonicalized it
to the native `int` `5`. -/
theorem next_caches_raw_value :
    LL.next ⟨[.symInt 5], [], false⟩ = some (.symInt 5, ⟨[], [.symInt 5], false⟩)
      ∧ vyxalify (.symInt 5) = some (.pyInt 5)
      ∧ PyVal.symInt 5 ≠ PyVal.pyInt 5 := by
  refine ⟨rfl, rfl, ?_⟩
  intro h
  exact PyVal.noConfusion h

/-- Claim C8 (code_bug evidence): `vyxalify` maps a plain native list — here
`[Integer(5)]` — to itself, unchanged: `list` is in the passthrough
`isinstance` tuple, so the result is a raw native list whose element is still
the uncanonicalized symbolic value, not a LazySequence of recursively
canonicalized elements (canonicalizing the element would give the native
`int` `5`). -/
theorem vyxalify_list_raw :
    vyxalify (.list [.symInt 5]) = some (.list [.symInt 5])
      ∧ vyxalify (.symInt 5) = some (.pyInt 5)
      ∧ PyVal.list [.symInt 5] ≠ PyVal.lazy [.pyInt 5] [] false := by
  refine ⟨rfl, rfl, ?_⟩
  intro h
  exact PyVal.noConfusion h

/-- Claim C10: `concatenate` (the `+` operator) captures `self.raw_object`
directly — no tee split, no fresh iteration — so fully consuming the
concatenation yields only `a`'s *remaining* producer values followed by `b`'s
elements, drains `a`'s producer in place without appending anything to `a`'s
cache, and a later fresh iteration of `a` yields only the values that were
cached before the concatenation was consumed. -/
theorem concat_captures_raw_producer (a b : LL) :
    (a.concatIter b).1 = a.rawObject ++ b.elems
      ∧ (a.concatIter b).2.1 = ⟨[], a.generated, a.infinite⟩
      ∧ ((a.concatIter b).2.1.iter).1 = a.generated
      ∧ (a.concatIter b).2.2 = b := by
  refine ⟨rfl, rfl, ?_, rfl⟩
  simp [LL.concatIter, LL.iter]

/-- Claim C7: a fresh iteration of a LazySequence yields exactly the cache
snapshot followed by the remaining producer values (nothing skipped, nothing
duplicated), leaves the state extensionally unchanged (so two fresh
iterations yield the same sequence and consuming one — a pure traversal of
its list — cannot affect the other), and advancing the sequence between
iterations does not change what a later fresh iteration yields. -/
theorem reiteration_independent (s : LL) :
    (s.iter).1 = s.elems
      ∧ (s.iter).2 = s
      ∧ ((s.iter).2.iter).1 = (s.iter).1
      ∧ (∀ x s', s.next = some (x, s') → (s'.iter).1 = (s.iter).1) := by
  refine ⟨rfl, rfl, rfl, ?_⟩
  intro x s' h
  cases hr : s.rawObject with
  | nil => simp [LL.next, hr] at h
  | cons y r =>
    simp only [LL.next, hr, Option.some.injEq, Prod.mk.injEq] at h
    obtain ⟨rfl, rfl⟩ := h
    simp [LL.iter, hr]

/-- Witness for `reiteration_independent` at a concrete input: a sequence
over `[1, 2, 3]` with `1` already cached. -/
theorem reiteration_independent_wit :
    ((⟨[.pyInt 2, .pyInt 3], [.pyInt 1], false⟩ : LL).iter).1
        = (⟨[.pyInt 2, .pyInt 3], [.pyInt 1], false⟩ : LL).elems
      ∧ ((⟨[.pyInt 2, .pyInt 3], [.pyInt 1], false⟩ : LL).iter).2
        = ⟨[.pyInt 2, .pyInt 3], [.pyInt 1], false⟩
      ∧ (((⟨[.pyInt 2, .pyInt 3], [.pyInt 1], false⟩ : LL).iter).2.iter).1
        = ((⟨[.pyInt 2, .pyInt 3], [.pyInt 1], false⟩ : LL).iter).1
      ∧ (∀ x s', (⟨[.pyInt 2, .pyInt 3], [.pyInt 1], false⟩ : LL).next = some (x, s') →
          (s'.iter).1 = ((⟨[.pyInt 2, .pyInt 3], [.pyInt 1], false⟩ : LL).iter).1) :=
  reiteration_independent ⟨[.pyInt 2, .pyInt 3], [.pyInt 1], false⟩

/-- Claim C2 (counterexample): concatenation loses `a`'s cached values.
After one element of `a = LazyList([1, 2])` has been produced (cached `[1]`,
producer at `[2]`), fully iterating `a + LazyList([3])` yields `[2, 3]`, not
`a`'s elements `[1, 2]` followed by `[3]`. -/
theorem concat_skips_cached_values :
    ((LL.getItem ⟨[.pyInt 1, .pyInt 2], [], false⟩ 0).2.concatIter
        ⟨[.pyInt 3], [], false⟩).1 = [.pyInt 2, .pyInt 3]
      ∧ (LL.getItem ⟨[.pyInt 1, .pyInt 2], [], false⟩ 0).2.elems
          ++ (⟨[.pyInt 3], [], false⟩ : LL).elems
          = [.pyInt 1, .pyInt 2, .pyInt 3]
      ∧ ([.pyInt 2, .pyInt 3] : List PyVal) ≠ [.pyInt 1, .pyInt 2, .pyInt 3] := by
  refine ⟨rfl, rfl, ?_⟩
  simp

/-- Claim C2 as amended: when `a` has no cached elements (nothing has been
produced from it yet), fully iterating `concatenate(a, b)` yields exactly
`a`'s elements followed by `b`'s elements, in order. -/
theorem concat_correct_of_uncached (a b : LL) (h : a.generated = []) :
    (a.concatIter b).1 = a.elems ++ b.elems := by
  simp [LL.concatIter, LL.elems, h]

/-- Witness for `concat_correct_of_uncached`: fresh sequences over `[1, 2]`
and `[3]` concatenate to `[1, 2, 3]`. -/
theorem concat_correct_of_uncached_wit :
    ((⟨[.pyInt 1, .pyInt 2], [], false⟩ : LL).concatIter ⟨[.pyInt 3], [], false⟩).1
      = (⟨[.pyInt 1, .pyInt 2], [], false⟩ : LL).elems
        ++ (⟨[.pyInt 3], [], false⟩ : LL).elems :=
  concat_correct_of_uncached ⟨[.pyInt 1, .pyInt 2], [], false⟩ ⟨[.pyInt 3], [], false⟩ rfl

/-- Claim C3: for a negative index `i` with `-n ≤ i < 0` (`n` the number of
elements), `__getitem__` appends a full fresh iteration to the cache — so
every element of the sequence ends up cached — and returns the element at
position `n + i`, whatever was cached beforehand. -/
theorem get_negative_materializes (s : LL) (i : ℤ)
    (h1 : -(s.elems.length : ℤ) ≤ i) (h2 : i < 0) :
    (s.getItem i).1
        = some (s.elems.get ⟨((s.elems.length : ℤ) + i).toNat, by omega⟩)
      ∧ ∀ x ∈ s.elems, x ∈ (s.getItem i).2.generated := by
  have hlen : s.elems.length = s.generated.length + s.rawObject.length := by
    simp [LL.elems]
  have hg : s.generated ++ (s.generated ++ s.rawObject) = s.generated ++ s.elems := by
    simp [LL.elems]
  simp only [LL.getItem, if_pos h2, hg]
  have hglen : (s.generated ++ s.elems).length = s.generated.length + s.elems.length := by
    simp
  constructor
  · rw [if_neg (by omega)]
    have hidx : (((s.generated ++ s.elems).length : ℤ) + i).toNat
        = s.generated.length + ((s.elems.length : ℤ) + i).toNat := by
      rw [hglen]; omega
    rw [hidx, List.get?_append_right (by omega)]
    have hsub : s.generated.length + ((s.elems.length : ℤ) + i).toNat
        - s.generated.length = ((s.elems.length : ℤ) + i).toNat := by omega
    rw [hsub, List.get?_eq_get (by omega)]
  · intro x hx
    split_ifs <;> simp [hx]

/-- Witness for `get_negative_materializes`: a sequence over `[1, 2, 3]` with
`1` already cached, indexed at `-2`, returns the element at position `1`. -/
theorem get_negative_materializes_wit :
    ((⟨[.pyInt 2, .pyInt 3], [.pyInt 1], false⟩ : LL).getItem (-2)).1
        = some ((⟨[.pyInt 2, .pyInt 3], [.pyInt 1], false⟩ : LL).elems.get
            ⟨((((⟨[.pyInt 2, .pyInt 3], [.pyInt 1], false⟩ : LL).elems.length : ℤ)
                + (-2)).toNat), by decide⟩)
      ∧ ∀ x ∈ (⟨[.pyInt 2, .pyInt 3], [.pyInt 1], false⟩ : LL).elems,
          x ∈ ((⟨[.pyInt 2, .pyInt 3], [.pyInt 1], false⟩ : LL).getItem (-2)).2.generated :=
  get_negative_materializes ⟨[.pyInt 2, .pyInt 3], [.pyInt 1], false⟩ (-2)
    (by decide) (by decide)

/-- Claim C5: `__getitem__` at a non-negative index `i` returns the `i`-th
element when `i` is in range (forcing production up to and including `i`:
afterwards the cache is the prefix of length `max (cached so far) (i + 1)`);
when the producer exhausts first and the cache is non-empty it returns
`cache[i % len(cache)]`; and when the cache is still empty it returns the
default `0`. -/
theorem get_nonneg_spec (s : LL) (i : ℕ) :
    (s.getItem (i : ℤ)).1
        = (if h : i < s.elems.length then some (s.elems.get ⟨i, h⟩)
           else if h0 : s.elems.length = 0 then some (.pyInt 0)
           else some (s.elems.get ⟨i % s.elems.length,
             Nat.mod_lt i (Nat.pos_of_ne_zero h0)⟩))
      ∧ (s.getItem (i : ℤ)).2.generated
          = s.elems.take (max s.generated.length (i + 1)) := by
  have hnn : ¬((i : ℤ) < 0) := by omega
  have hlen : s.elems.length = s.generated.length + s.rawObject.length := by
    simp [LL.elems]
  simp only [LL.getItem, hnn, if_false, Int.toNat_natCast]
  by_cases h1 : i < s.generated.length
  · have hel : i < s.elems.length := by omega
    rw [if_pos h1]
    constructor
    · rw [dif_pos hel, ← List.get?_eq_get hel]
      show s.generated.get? i = s.elems.get? i
      rw [LL.elems, List.get?_append h1]
    · rw [Nat.max_eq_left (by omega), LL.elems, ← List.take_left s.generated s.rawObject]
      simp
  · rw [if_neg h1]
    have hgen : s.generated ++ s.rawObject.take (i + 1 - s.generated.length)
        = s.elems.take (i + 1) := by
      rw [LL.elems, List.take_append_eq_append_take]
      congr 1
      exact (List.take_of_length_le (by omega)).symm
    have hmax : max s.generated.length (i + 1) = i + 1 := by omega
    by_cases h3 : i < s.elems.length
    · have hlen' : (s.generated ++ s.rawObject.take (i + 1 - s.generated.length)).length
          = i + 1 := by
        simp only [hgen, List.length_take]
        omega
      rw [if_neg (by omega)]
      refine ⟨?_, by rw [hgen, hmax]⟩
      rw [dif_pos h3, hlen', Nat.mod_eq_of_lt (by omega), hgen,
        List.get?_take (by omega), List.get?_eq_get h3]
    · have htake : s.rawObject.take (i + 1 - s.generated.length) = s.rawObject := by
        apply List.take_of_length_le
        omega
      have hgel : s.generated ++ s.rawObject.take (i + 1 - s.generated.length)
          = s.elems := by rw [htake, LL.elems]
      have htael : s.elems.take (max s.generated.length (i + 1)) = s.elems := by
        rw [hmax]
        exact List.take_of_length_le (by omega)
      by_cases h0 : s.elems.length = 0
      · rw [if_pos (by rw [hgel]; omega)]
        refine ⟨?_, by rw [hgel, htael]⟩
        rw [dif_neg h3, dif_pos h0]
      · rw [if_neg (by rw [hgel]; omega)]
        refine ⟨?_, by rw [hgel, htael]⟩
        rw [dif_neg h3, dif_neg h0, hgel, List.get?_eq_get (Nat.mod_lt i (by omega))]

theorem simplifyList_append (xs ys : List PyVal) :
    simplifyList (xs ++ ys) = simplifyList xs ++ simplifyList ys := by
  induction xs with
  | nil => simp [simplifyList]
  | cons x xs ih => simp [simplifyList, ih]

/-- When the production loop of the infinite branch of `__contains__` starts
below the target and every remaining producer value stays `<=` the target
without equalling it, the loop runs the producer dry and the final
`next(self)` raises `StopIteration` out of the method. -/
theorem containsInf_error (last : PyVal) (raw : List PyVal) (gen : List PyVal)
    (inf : Bool) (t : PyVal)
    (hlast : pyLeB last t = true)
    (hall : ∀ x ∈ raw, pyLeB x t = true ∧ pyEq x t = false) :
    containsInf last raw gen inf t = .error () := by
  induction raw generalizing last gen with
  | nil => simp [containsInf, hlast]
  | cons x r ih =>
    have hx := hall x (by simp)
    rw [containsInf, if_pos hlast, if_neg (by simp [hx.2])]
    exact ih x (gen ++ [x]) hx.1 (fun y hy => hall y (by simp [hy]))

/-- Claim C6 (counterexample): membership on a sequence *flagged* infinite
whose producer in fact exhausts — here `LazyList([1, 2], isinf=True)` probed
for `5` — propagates the producer's exhaustion signal (`StopIteration`) to
the caller instead of returning found/not-found. -/
theorem contains_infinite_exhaustion_cex :
    LL.contains ⟨[.pyInt 1, .pyInt 2], [], true⟩ (.pyInt 5) = .error () := by
  have h1 : pyLeB (.pyInt 0) (.pyInt 5) = true := by
    simp [pyLeB, numVal?]
  have h2 : pyLeB (.pyInt 1) (.pyInt 5) = true := by
    simp [pyLeB, numVal?]
  have h3 : pyLeB (.pyInt 2) (.pyInt 5) = true := by
    simp [pyLeB, numVal?]
    norm_num
  have e1 : pyEq (.pyInt 1) (.pyInt 5) = false := by
    simp [pyEq, numVal?]
  have e2 : pyEq (.pyInt 2) (.pyInt 5) = false := by
    simp [pyEq, numVal?]
  show containsInf (.pyInt 0) [.pyInt 1, .pyInt 2] [] true (.pyInt 5) = .error ()
  rw [containsInf, if_pos h1, if_neg (by simp [e1]),
    containsInf, if_pos h2, if_neg (by simp [e2]),
    containsInf, if_pos h3]

/-- Claim C6 as amended: producer exhaustion is handled internally by the
finite-branch scan of `contains` (which always returns found/not-found and
leaves the state extensionally unchanged); but in the infinite branch, when
the producer exhausts while the last produced (or initial) value is still
`<=` the target and no produced value equals it, `next(self)`'s exhaustion
signal propagates to the caller as an error instead of a not-found answer. -/
theorem contains_exhaustion_behaviour (s : LL) (t : PyVal) :
    (s.infinite = false →
      s.contains t = .ok (s.elems.any (fun x => pyEq x t), s))
    ∧ (s.infinite = true →
      pyLeB ((s.generated.getLast?).getD (.pyInt 0)) t = true →
      (∀ x ∈ s.rawObject, pyLeB x t = true ∧ pyEq x t = false) →
      s.contains t = .error ()) := by
  constructor
  · intro hf
    simp [LL.contains, hf, LL.elems]
  · intro hi hlast hall
    simp only [LL.contains, hi, if_true]
    exact containsInf_error _ _ _ _ _ hlast hall

mutual

/-- On values already in the image of `simplify` (where no `LazyList` and no
raw symbolic value occurs), Python `==` agrees with the structural comparison
`eqS`. -/
theorem pyEq_simplify (a b : PyVal) :
    pyEq (simplify a) (simplify b) = eqS (simplify a) (simplify b) := by
  cases a <;> cases b <;>
    first
    | (simp [simplify, pyEq, eqS, numVal?]; done)
    | (simp only [simplify, pyEq, eqS, ← simplifyList_append]
       exact pyEqList_simplifyL _ _)
termination_by psize a + psize b
decreasing_by
  all_goals simp only [psize, psizeList_append] <;> omega

/-- Elementwise version of `pyEq_simplify`. -/
theorem pyEqList_simplifyL (xs ys : List PyVal) :
    pyEqList (simplifyList xs) (simplifyList ys)
      = eqSList (simplifyList xs) (simplifyList ys) := by
  cases xs with
  | nil =>
    cases ys with
    | nil => simp [simplifyList, pyEqList, eqSList]
    | cons y ys => simp [simplifyList, pyEqList, eqSList]
  | cons x xs =>
    cases ys with
    | nil => simp [simplifyList, pyEqList, eqSList]
    | cons y ys =>
      simp only [simplifyList, pyEqList, eqSList]
      rw [pyEq_simplify x y, pyEqList_simplifyL xs ys]
termination_by psizeList xs + psizeList ys
decreasing_by
  all_goals simp only [psizeList] <;> omega

end

/-- Claim C9 (counterexample): a cached element breaks the
flattened-comparison contract.  A producer yields `Rational(1, 3)`; one
forward step caches it raw.  Comparing against the plain list containing the
float `1/3` (exactly the value `flatten` gives to `Rational(1, 3)`): the
flattened forms of the two sides are structurally identical, yet `equals`
returns false, because `listify` hands the *cached* rational to the
comparison unflattened and the exact rational differs from the float. -/
theorem equals_cached_rational_cex :
    LL.next ⟨[.rat (1 / 3)], [], false⟩
        = some (.rat (1 / 3), ⟨[], [.rat (1 / 3)], false⟩)
      ∧ (LL.eq ⟨[], [.rat (1 / 3)], false⟩ (.list [.flt (floatOfRat (1 / 3))])).1
          = false
      ∧ specFlattenedEq ⟨[], [.rat (1 / 3)], false⟩
          (.list [.flt (floatOfRat (1 / 3))]) = true := by
  refine ⟨rfl, ?_, ?_⟩
  · simp [LL.eq, simplify, simplifyList, pyEq, pyEqList, numVal?]
    have h3 := floatOfRat_third_ne
    rw [one_div] at h3
    exact Ne.symm h3
  · simp [specFlattenedEq, simplify, simplifyList, eqS, eqSList, numVal?]

/-- Claim C9 as amended: `equals` agrees with flattened-form structural
identity whenever the sequence has no cached elements at comparison time
(the remaining producer values and `other` are both fully flattened); a raw
cached element — such as a non-dyadic rational — enters the comparison
unflattened and can break the equivalence. -/
theorem equals_flattened_of_empty_cache (s : LL) (other : PyVal)
    (h : s.generated = []) :
    (s.eq other).1 = specFlattenedEq s other := by
  have h2 := pyEq_simplify (.list s.rawObject) other
  simp only [simplify] at h2
  simp only [LL.eq, specFlattenedEq, h, List.nil_append]
  exact h2

/-- Witness for `equals_flattened_of_empty_cache`: a fresh (nothing cached)
sequence over `[Rational(1, 3)]` compared with the list holding the float
`1/3`. -/
theorem equals_flattened_of_empty_cache_wit :
    ((⟨[.rat (1 / 3)], [], false⟩ : LL).eq (.list [.flt (floatOfRat (1 / 3))])).1
      = specFlattenedEq ⟨[.rat (1 / 3)], [], false⟩
          (.list [.flt (floatOfRat (1 / 3))]) :=
  equals_flattened_of_empty_cache ⟨[.rat (1 / 3)], [], false⟩
    (.list [.flt (floatOfRat (1 / 3))]) rfl
